import Mathlib

/-
Verification of the tree-to-map converter of hl7Parser.py.

The source file defines two functions of interest:
  * hl7_message_to_dict(m, use_long_name): recursively folds a parsed HL7
    tree node into a nested dictionary (branch) or its leaf ER7 string (leaf);
  * hl7_str_to_dict(s, use_long_name): parses raw text with the external
    hl7apy parser, extracts a message id via er7_msg.children[0], and applies
    hl7_message_to_dict to the root.
-/

namespace HL7

/-- A parsed HL7 tree node as consumed by the converter: a short name
(`c.name`), an optional long name (`c.long_name`, where Python's `None`
is `none`), an ordered list of children (`m.children`), and the ER7 leaf
text returned by `m.to_er7()` when the node is childless. -/
inductive Node where
  | mk : String → Option String → List Node → String → Node

def Node.name : Node → String
  | .mk n _ _ _ => n

def Node.longName : Node → Option String
  | .mk _ l _ _ => l

def Node.children : Node → List Node
  | .mk _ _ cs _ => cs

def Node.leaf : Node → String
  | .mk _ _ _ lf => lf

/-- The Python values produced by the converter: a string (leaf),
a list (aggregation sequence), or a dict modelled as an insertion-ordered
association list (Python dicts preserve insertion order, and updating an
existing key keeps its position). -/
inductive HVal where
  | str : String → HVal
  | list : List HVal → HVal
  | dict : List (String × HVal) → HVal

/-- Python's `str.upper()` applied characterwise. -/
def upper (s : String) : String :=
  String.mk (s.data.map Char.toUpper)

/-- The chosen mapping key for a child node `c`, from the source:
`name = str(c.name).upper()`; then, if `use_long_name`,
`name = str(c.long_name).upper() if c.long_name else name`
(Python's `None` and `""` are both falsy). -/
def chosenName (use_long_name : Bool) (c : Node) : String :=
  let name := upper c.name
  if use_long_name then
    match c.longName with
    | some l => if l = "" then name else upper l
    | none => name
  else name

/-- The promotion step, from the source: if the stored value is not a list
it becomes `[d[name]]`, and then the new value is appended. -/
def promote (old nv : HVal) : HVal :=
  match old with
  | .list xs => .list (xs ++ [nv])
  | w => .list [w, nv]

/-- Inserting a converted child under its chosen name: `d[name] = dictified`
appends a fresh key at the end; an existing key is promoted in place
(Python dict update keeps the key's original position). -/
def addEntry : List (String × HVal) → String → HVal → List (String × HVal)
  | [], k, v => [(k, v)]
  | (k', w) :: rest, k, v =>
    if k' = k then (k', promote w v) :: rest
    else (k', w) :: addEntry rest k v

mutual

/-- `hl7_message_to_dict(m, use_long_name)` from the source: if `m.children`
is nonempty, fold the children in order into a dict; otherwise return
`m.to_er7()`, the leaf string. -/
def hl7_message_to_dict (use_long_name : Bool) : Node → HVal
  | .mk _ _ [] lf => .str lf
  | .mk _ _ (c :: cs) _ => .dict (convChildren use_long_name (c :: cs) [])

/-- The `for c in m.children` loop of `hl7_message_to_dict`, threading the
dict accumulator `d` through the children in order. -/
def convChildren (use_long_name : Bool) : List Node → List (String × HVal) → List (String × HVal)
  | [], d => d
  | c :: cs, d =>
      convChildren use_long_name cs
        (addEntry d (chosenName use_long_name c) (hl7_message_to_dict use_long_name c))

end

/-- `hl7_str_to_dict(s, use_long_name)` from the source, parameterised by the
external hl7apy parser (`parser.parse_message`, spec §6: raises on malformed
input, modelled as `Except`).  On parse failure the error propagates (there is
no try/except in the source).  On success the source first evaluates
`er7_msg.children[0].MESSAGE_CONTROL_ID.value` for logging: indexing
`children[0]` on a childless root raises an IndexError in the language itself,
modelled as `.error "IndexError"`; only then is the converter applied. -/
def hl7_str_to_dict (parse : String → Except String Node) (s : String)
    (use_long_name : Bool) : Except String HVal :=
  match parse s with
  | .error e => .error e
  | .ok er7_msg =>
    match er7_msg.children with
    | [] => .error "IndexError"
    | _ :: _ => .ok (hl7_message_to_dict use_long_name er7_msg)

/-- True exactly on Python list values: `isinstance(v, list)`. -/
def HVal.isSeq : HVal → Bool
  | .list _ => true
  | _ => false

/-- Dictionary lookup `d[k]` / `k in d` on the insertion-ordered
association list. -/
def lookupA (k : String) : List (String × HVal) → Option HVal
  | [] => none
  | (k', v) :: d => if k' = k then some v else lookupA k d

/-- The converted values of exactly those children whose chosen name is `k`,
in the order the children appear. -/
def childVals (u : Bool) (k : String) (cs : List Node) : List HVal :=
  (cs.filter (fun c => chosenName u c = k)).map (hl7_message_to_dict u)

mutual

/-- The multiset-carrier of leaf strings of an input tree: a childless node
contributes its ER7 leaf text; a branch node contributes its children's
leaves in order. -/
def nodeLeaves : Node → List String
  | .mk _ _ [] lf => [lf]
  | .mk _ _ (c :: cs) _ => nodeLeavesList (c :: cs)

/-- Leaves of a list of sibling nodes, concatenated in order. -/
def nodeLeavesList : List Node → List String
  | [] => []
  | c :: cs => nodeLeaves c ++ nodeLeavesList cs

end

mutual

/-- The leaf strings reachable in an output value, flattening aggregation
sequences and nested dictionaries. -/
def HVal.leaves : HVal → List String
  | .str s => [s]
  | .list xs => leavesList xs
  | .dict d => leavesDict d

/-- Leaves of a list of output values, concatenated. -/
def leavesList : List HVal → List String
  | [] => []
  | v :: vs => v.leaves ++ leavesList vs

/-- Leaves of the values of a dictionary, concatenated in entry order. -/
def leavesDict : List (String × HVal) → List String
  | [] => []
  | (_, v) :: d => v.leaves ++ leavesDict d

end

/-- Structural induction for `Node`: to prove a property of every node it
suffices to prove it for a node assuming it for all its children. -/
theorem node_ind {P : Node → Prop}
    (h : ∀ nm ln cs lf, (∀ c, c ∈ cs → P c) → P (.mk nm ln cs lf)) :
    ∀ n, P n
  | .mk nm ln cs lf => h nm ln cs lf (fun c hc => node_ind h c)
termination_by n => sizeOf n
decreasing_by
  have hlt := List.sizeOf_lt_of_mem hc
  simp only [Node.mk.sizeOf_spec]
  omega

/-- The converter never returns a Python list at top level: a childless node
yields a string and a node with children yields a dict. -/
theorem hl7_isSeq_false (u : Bool) (n : Node) :
    (hl7_message_to_dict u n).isSeq = false := by
  obtain ⟨nm, ln, cs, lf⟩ := n
  cases cs <;> rfl

theorem lookupA_addEntry_self (k : String) (v : HVal) :
    ∀ d : List (String × HVal),
      lookupA k (addEntry d k v) =
        some (match lookupA k d with
              | none => v
              | some w => promote w v)
  | [] => by simp [addEntry, lookupA]
  | (k', w) :: rest => by
    by_cases hk : k' = k
    · subst hk
      simp [addEntry, lookupA]
    · simp only [addEntry, lookupA, if_neg hk]
      exact lookupA_addEntry_self k v rest

theorem lookupA_addEntry_ne (k k' : String) (v : HVal) (hne : k' ≠ k) :
    ∀ d : List (String × HVal),
      lookupA k (addEntry d k' v) = lookupA k d
  | [] => by simp [addEntry, lookupA, hne]
  | (k'', w) :: rest => by
    by_cases hk : k'' = k'
    · subst hk
      simp [addEntry, lookupA, hne]
    · simp only [addEntry, lookupA, if_neg hk]
      by_cases hk2 : k'' = k
      · simp [hk2]
      · simp [hk2, lookupA_addEntry_ne k k' v hne rest]

theorem foldl_promote_list (vs : List HVal) :
    ∀ xs : List HVal, vs.foldl promote (.list xs) = .list (xs ++ vs) := by
  induction vs with
  | nil => intro xs; simp
  | cons v vs ih =>
    intro xs
    simp only [List.foldl_cons, promote]
    rw [ih (xs ++ [v])]
    simp

theorem foldl_promote_notSeq (w : HVal) (hw : w.isSeq = false) (v : HVal)
    (vs : List HVal) : (v :: vs).foldl promote w = HVal.list (w :: v :: vs) := by
  have hp : promote w v = .list [w, v] := by
    cases w with
    | str s => rfl
    | dict d => rfl
    | list xs => simp [HVal.isSeq] at hw
  simp only [List.foldl_cons, hp, foldl_promote_list]
  rfl

theorem childVals_cons (u : Bool) (k : String) (c : Node) (cs : List Node) :
    childVals u k (c :: cs) =
      if chosenName u c = k then hl7_message_to_dict u c :: childVals u k cs
      else childVals u k cs := by
  by_cases h : chosenName u c = k <;> simp [childVals, List.filter_cons, h]

/-- Running the child loop from accumulator `d`: the final binding of key `k`
is the initial binding (if any) extended by promotion with each child value
chosen-named `k`, in order; a key absent from `d` ends bound to its first
value, promoted with the rest. -/
theorem lookupA_convChildren (u : Bool) (k : String) :
    ∀ (cs : List Node) (d : List (String × HVal)),
      lookupA k (convChildren u cs d) =
        match lookupA k d with
        | some w => some ((childVals u k cs).foldl promote w)
        | none =>
          match childVals u k cs with
          | [] => none
          | v :: vs => some (vs.foldl promote v)
  | [], d => by
    cases h : lookupA k d <;> simp [convChildren, childVals, h]
  | c :: cs, d => by
    rw [convChildren, lookupA_convChildren u k cs _]
    by_cases hc : chosenName u c = k
    · rw [hc, lookupA_addEntry_self k _ d, childVals_cons, if_pos hc]
      cases h : lookupA k d <;> simp
    · rw [lookupA_addEntry_ne k (chosenName u c) _ hc d, childVals_cons, if_neg hc]

theorem childVals_mem_isSeq (u : Bool) (k : String) (cs : List Node) :
    ∀ v ∈ childVals u k cs, v.isSeq = false := by
  intro v hv
  simp only [childVals, List.mem_map, List.mem_filter] at hv
  obtain ⟨c, -, rfl⟩ := hv
  exact hl7_isSeq_false u c

/-- C2: a childless node with leaf value `v` converts to exactly the string
`v`, unchanged, for either value of `use_long_name`; the result is a string
constructor, not a mapping. -/
theorem claim_C2_leaf_identity (u : Bool) (nm : String) (ln : Option String)
    (lf : String) : hl7_message_to_dict u (.mk nm ln [] lf) = .str lf := rfl

/-- C3: a branch node with exactly one child maps the child's chosen name
directly to the converted child, which is itself never a sequence, so the
value is not wrapped in a one-element list. -/
theorem claim_C3_single_child (u : Bool) (nm : String) (ln : Option String)
    (c : Node) (lf : String) :
    hl7_message_to_dict u (.mk nm ln [c] lf) =
      .dict [(chosenName u c, hl7_message_to_dict u c)] ∧
    (hl7_message_to_dict u c).isSeq = false :=
  ⟨rfl, hl7_isSeq_false u c⟩

/-- C8: when the external parser rejects the raw text, `hl7_str_to_dict`
propagates the parser's error unchanged and produces no output mapping. -/
theorem claim_C8_parse_error_propagates (parse : String → Except String Node)
    (s : String) (u : Bool) (e : String) (h : parse s = .error e) :
    hl7_str_to_dict parse s u = .error e ∧
    ∀ v, hl7_str_to_dict parse s u ≠ .ok v := by
  refine ⟨?_, ?_⟩ <;> simp [hl7_str_to_dict, h]

/-- C8 witness: a parser that rejects every input propagates its error
through `hl7_str_to_dict`. -/
theorem claim_C8_witness :
    ((fun _ : String => (.error "ParseError" : Except String Node)) "MSH|bad" =
      .error "ParseError") ∧
    hl7_str_to_dict (fun _ => .error "ParseError") "MSH|bad" true =
      .error "ParseError" :=
  ⟨rfl, (claim_C8_parse_error_propagates (fun _ => .error "ParseError")
    "MSH|bad" true "ParseError" rfl).1⟩

/-- C10 counterexample: when the parser returns a childless root, the entry
point does NOT return the root's leaf string — the message-id extraction
`er7_msg.children[0]` raises first, so the result is an error, not the leaf
value. -/
theorem claim_C10_counterexample :
    hl7_str_to_dict (fun _ => .ok (Node.mk "MSH" none [] "LEAF")) "raw" true ≠
      .ok (.str "LEAF") ∧
    hl7_str_to_dict (fun _ => .ok (Node.mk "MSH" none [] "LEAF")) "raw" true =
      .error "IndexError" :=
  ⟨(fun h => nomatch h), rfl⟩

/-- C10 (amended): if the parsed root node has no children, `hl7_str_to_dict`
raises an IndexError from the message-id extraction (`er7_msg.children[0]`)
and produces no result; the converter `hl7_message_to_dict` itself would
return the root's leaf string, but the entry point never reaches it. -/
theorem claim_C10_childless_root_raises (parse : String → Except String Node)
    (s : String) (u : Bool) (nm : String) (ln : Option String) (lf : String)
    (h : parse s = .ok (Node.mk nm ln [] lf)) :
    hl7_str_to_dict parse s u = .error "IndexError" ∧
    hl7_message_to_dict u (Node.mk nm ln [] lf) = .str lf := by
  refine ⟨?_, rfl⟩
  simp [hl7_str_to_dict, h, Node.children]

/-- C10 witness: a parser returning a concrete childless root makes the entry
point fail with the IndexError while the converter maps the root to its
leaf string. -/
theorem claim_C10_witness :
    hl7_str_to_dict (fun _ => .ok (Node.mk "MSH" none [] "A|B")) "x" false =
      .error "IndexError" ∧
    hl7_message_to_dict false (Node.mk "MSH" none [] "A|B") = .str "A|B" :=
  claim_C10_childless_root_raises (fun _ => .ok (Node.mk "MSH" none [] "A|B"))
    "x" false "MSH" none "A|B" rfl

/-- C1: at a branch node, a chosen name carried by two or more children maps
to the list of those children's converted values in document order (the
first value staying first under promotion, interleaved other names not
disturbing the order); a name carried by exactly one child maps to that
child's value alone, and an uncarried name is absent. -/
theorem claim_C1_repetition_order (u : Bool) (nm : String) (ln : Option String)
    (cs : List Node) (lf : String) (k : String) (hcs : cs ≠ []) :
    ∃ d, hl7_message_to_dict u (.mk nm ln cs lf) = .dict d ∧
      lookupA k d =
        match childVals u k cs with
        | [] => none
        | [v] => some v
        | v :: vs => some (.list (v :: vs)) := by
  obtain ⟨c, cs', rfl⟩ : ∃ c cs', cs = c :: cs' := by
    cases cs with
    | nil => exact absurd rfl hcs
    | cons c cs' => exact ⟨c, cs', rfl⟩
  refine ⟨convChildren u (c :: cs') [], rfl, ?_⟩
  rw [lookupA_convChildren u k (c :: cs') []]
  show (match childVals u k (c :: cs') with
        | [] => none
        | v :: vs => some (vs.foldl promote v)) = _
  cases h : childVals u k (c :: cs') with
  | nil => rfl
  | cons v vs =>
    have hv : v.isSeq = false :=
      childVals_mem_isSeq u k (c :: cs') v (by rw [h]; exact List.mem_cons_self v vs)
    cases vs with
    | nil => rfl
    | cons v2 vs' =>
      show some ((v2 :: vs').foldl promote v) = some (HVal.list (v :: v2 :: vs'))
      rw [foldl_promote_notSeq v hv v2 vs']

/-- C1 witness: children named N, M, N with leaves v1, v2, v3 put
`[v1, v3]` under N in document order. -/
theorem claim_C1_witness :
    ∃ d, hl7_message_to_dict false
        (.mk "root" none
          [.mk "N" none [] "v1", .mk "M" none [] "v2", .mk "N" none [] "v3"]
          "") = .dict d ∧
      lookupA "N" d = some (.list [.str "v1", .str "v3"]) := by
  obtain ⟨d, hd, hl⟩ := claim_C1_repetition_order false "root" none
    [.mk "N" none [] "v1", .mk "M" none [] "v2", .mk "N" none [] "v3"]
    "" "N" (by simp)
  refine ⟨d, hd, hl.trans ?_⟩
  rfl

/-- C4: the chosen key of a visited child is its short name upper-cased;
with `use_long_name` true a non-empty long name is used (upper-cased)
instead, while an absent or empty long name falls back to the short name;
the decision is per node, and the converter keys each child by exactly this
chosen name. -/
theorem claim_C4_naming_rule (u : Bool) (nm0 : String) (ln0 : Option String)
    (lf0 : String) (c : Node) :
    hl7_message_to_dict u (.mk nm0 ln0 [c] lf0) =
      .dict [(chosenName u c, hl7_message_to_dict u c)] ∧
    chosenName false c = upper c.name ∧
    (c.longName = none → chosenName true c = upper c.name) ∧
    (c.longName = some "" → chosenName true c = upper c.name) ∧
    (∀ l, c.longName = some l → l ≠ "" → chosenName true c = upper l) := by
  obtain ⟨nm, ln, cs, lf⟩ := c
  refine ⟨rfl, rfl, ?_, ?_, ?_⟩
  · intro h
    simp only [Node.longName] at h
    subst h
    rfl
  · intro h
    simp only [Node.longName] at h
    subst h
    rfl
  · intro l h hlne
    simp only [Node.longName] at h
    subst h
    simp [chosenName, Node.longName, hlne]

/-- C4 witness: with `use_long_name` true, a sibling with a long name keys by
it, one without (or with an empty one) keys by its short name. -/
theorem claim_C4_witness :
    chosenName true (Node.mk "pid_5" (some "patient_name") [] "X") =
      "PATIENT_NAME" ∧
    chosenName true (Node.mk "pid_3" none [] "Y") = "PID_3" ∧
    chosenName true (Node.mk "nk1_2" (some "") [] "Z") = "NK1_2" := by
  refine ⟨?_, ?_, ?_⟩
  · rw [(claim_C4_naming_rule true "r" none ""
      (Node.mk "pid_5" (some "patient_name") [] "X")).2.2.2.2 "patient_name"
      rfl (by decide)]
    decide
  · rw [(claim_C4_naming_rule true "r" none ""
      (Node.mk "pid_3" none [] "Y")).2.2.1 rfl]
    decide
  · rw [(claim_C4_naming_rule true "r" none ""
      (Node.mk "nk1_2" (some "") [] "Z")).2.2.2.1 rfl]
    decide

/-- C5: two children whose names agree up to letter case collide into the
same upper-cased key and are aggregated into one sequence under it. -/
theorem claim_C5_case_normalization (u : Bool) (nm : String)
    (ln : Option String) (lf : String) (n1 n2 lf1 lf2 : String)
    (h : upper n1 = upper n2) :
    hl7_message_to_dict u
      (.mk nm ln [.mk n1 none [] lf1, .mk n2 none [] lf2] lf) =
      .dict [(upper n1, .list [.str lf1, .str lf2])] := by
  have h1 : chosenName u (Node.mk n1 none [] lf1) = upper n1 := by
    cases u <;> rfl
  have h2 : chosenName u (Node.mk n2 none [] lf2) = upper n2 := by
    cases u <;> rfl
  show HVal.dict
      (addEntry
        (addEntry [] (chosenName u (Node.mk n1 none [] lf1)) (.str lf1))
        (chosenName u (Node.mk n2 none [] lf2)) (.str lf2)) = _
  rw [h1, h2, ← h]
  show HVal.dict (addEntry [(upper n1, HVal.str lf1)] (upper n1)
    (HVal.str lf2)) = _
  simp [addEntry, promote]

/-- C5 witness: children named abc and ABC end under the single key ABC as
one two-element sequence. -/
theorem claim_C5_witness :
    upper "abc" = upper "ABC" ∧
    hl7_message_to_dict false
      (.mk "seg" none [.mk "abc" none [] "v1", .mk "ABC" none [] "v2"] "") =
      .dict [("ABC", .list [.str "v1", .str "v2"])] := by
  refine ⟨by decide, ?_⟩
  rw [claim_C5_case_normalization false "seg" none "" "abc" "ABC" "v1" "v2"
    (by decide)]
  have hu : upper "abc" = "ABC" := by decide
  rw [hu]

/-- C7: with `use_long_name` true, aggregation is keyed by the chosen
(possibly long) name, so two siblings with different short names but the
same non-empty long name collapse into one key with one sequence. -/
theorem claim_C7_aggregate_by_chosen_name (nm : String) (ln : Option String)
    (lf : String) (n1 n2 l lf1 lf2 : String) (_hne : n1 ≠ n2) (hl : l ≠ "") :
    hl7_message_to_dict true
      (.mk nm ln [.mk n1 (some l) [] lf1, .mk n2 (some l) [] lf2] lf) =
      .dict [(upper l, .list [.str lf1, .str lf2])] := by
  have h1 : chosenName true (Node.mk n1 (some l) [] lf1) = upper l := by
    simp [chosenName, Node.longName, hl]
  have h2 : chosenName true (Node.mk n2 (some l) [] lf2) = upper l := by
    simp [chosenName, Node.longName, hl]
  show HVal.dict
      (addEntry
        (addEntry [] (chosenName true (Node.mk n1 (some l) [] lf1)) (.str lf1))
        (chosenName true (Node.mk n2 (some l) [] lf2)) (.str lf2)) = _
  rw [h1, h2]
  show HVal.dict (addEntry [(upper l, HVal.str lf1)] (upper l)
    (HVal.str lf2)) = _
  simp [addEntry, promote]

/-- C7 witness: short names pid_5 and nk1_2 sharing the long name
patient_name aggregate under the single key PATIENT_NAME. -/
theorem claim_C7_witness :
    ("pid_5" ≠ "nk1_2") ∧ ("patient_name" ≠ "") ∧
    hl7_message_to_dict true
      (.mk "seg" none
        [.mk "pid_5" (some "patient_name") [] "v1",
         .mk "nk1_2" (some "patient_name") [] "v2"] "") =
      .dict [("PATIENT_NAME", .list [.str "v1", .str "v2"])] := by
  refine ⟨by decide, by decide, ?_⟩
  rw [claim_C7_aggregate_by_chosen_name "seg" none "" "pid_5" "nk1_2"
    "patient_name" "v1" "v2" (by decide) (by decide)]
  have hu : upper "patient_name" = "PATIENT_NAME" := by decide
  rw [hu]

/-- A stored dictionary value is well-shaped when, if it is a Python list,
every element of the list is itself not a list. -/
def seqElemsOk : HVal → Prop
  | .list xs => ∀ x ∈ xs, x.isSeq = false
  | _ => True

theorem promote_seqElemsOk (w v : HVal) (hw : seqElemsOk w)
    (hv : v.isSeq = false) : seqElemsOk (promote w v) := by
  cases w with
  | list xs =>
    show ∀ x ∈ xs ++ [v], x.isSeq = false
    intro x hx
    rcases List.mem_append.mp hx with h | h
    · exact hw x h
    · rcases List.mem_singleton.mp h with rfl
      exact hv
  | str s =>
    show ∀ x ∈ [HVal.str s, v], x.isSeq = false
    intro x hx
    rcases List.mem_cons.mp hx with rfl | h
    · rfl
    · rcases List.mem_singleton.mp h with rfl
      exact hv
  | dict d0 =>
    show ∀ x ∈ [HVal.dict d0, v], x.isSeq = false
    intro x hx
    rcases List.mem_cons.mp hx with rfl | h
    · rfl
    · rcases List.mem_singleton.mp h with rfl
      exact hv

theorem seqElemsOk_of_isSeq_false (v : HVal) (hv : v.isSeq = false) :
    seqElemsOk v := by
  cases v with
  | list xs => simp [HVal.isSeq] at hv
  | str s => trivial
  | dict d => trivial

theorem addEntry_seqElemsOk (k : String) (v : HVal) (hv : v.isSeq = false) :
    ∀ d : List (String × HVal), (∀ p ∈ d, seqElemsOk p.2) →
      ∀ p ∈ addEntry d k v, seqElemsOk p.2
  | [], _ => by
    intro p hp
    rcases List.mem_singleton.mp hp with rfl
    exact seqElemsOk_of_isSeq_false v hv
  | (k', w) :: rest, hd => by
    intro p hp
    by_cases hk : k' = k
    · simp only [addEntry, if_pos hk] at hp
      rcases List.mem_cons.mp hp with rfl | h
      · exact promote_seqElemsOk w v (hd (k', w) (List.mem_cons_self _ _)) hv
      · exact hd p (List.mem_cons_of_mem _ h)
    · simp only [addEntry, if_neg hk] at hp
      rcases List.mem_cons.mp hp with rfl | h
      · exact hd (k', w) (List.mem_cons_self _ _)
      · exact addEntry_seqElemsOk k v hv rest
          (fun q hq => hd q (List.mem_cons_of_mem _ hq)) p h

theorem convChildren_seqElemsOk (u : Bool) :
    ∀ (cs : List Node) (d : List (String × HVal)),
      (∀ p ∈ d, seqElemsOk p.2) → ∀ p ∈ convChildren u cs d, seqElemsOk p.2
  | [], _, hd => hd
  | c :: cs, d, hd =>
    convChildren_seqElemsOk u cs _
      (addEntry_seqElemsOk _ _ (hl7_isSeq_false u c) d hd)

/-- C9: the converter returns a string or a dict, never a list, at top level;
hence any list stored in a produced dict arose from promotion within that
same branch, and its elements are each non-lists (directly converted
children), so a converted child value is never appended to by mistake. -/
theorem claim_C9_value_shape (u : Bool) (n : Node) :
    (hl7_message_to_dict u n).isSeq = false ∧
    ∀ d, hl7_message_to_dict u n = .dict d → ∀ p ∈ d, seqElemsOk p.2 := by
  refine ⟨hl7_isSeq_false u n, ?_⟩
  obtain ⟨nm, ln, cs, lf⟩ := n
  cases cs with
  | nil =>
    intro d hd
    simp only [hl7_message_to_dict] at hd
    exact nomatch hd
  | cons c cs' =>
    intro d hd
    simp only [hl7_message_to_dict] at hd
    injection hd with hd
    subst hd
    exact convChildren_seqElemsOk u (c :: cs') []
      (fun p hp => nomatch hp)

/-- C9 witness: a branch with a repeated child name produces a non-list
value whose aggregated entry is a list of non-lists. -/
theorem claim_C9_witness :
    (hl7_message_to_dict false
      (.mk "R" none [.mk "A" none [] "x", .mk "A" none [] "y"] "")).isSeq
      = false ∧
    seqElemsOk (HVal.list [.str "x", .str "y"]) := by
  refine ⟨(claim_C9_value_shape false
    (.mk "R" none [.mk "A" none [] "x", .mk "A" none [] "y"] "")).1, ?_⟩
  exact (claim_C9_value_shape false
      (.mk "R" none [.mk "A" none [] "x", .mk "A" none [] "y"] "")).2
    [("A", .list [.str "x", .str "y"])] (by rfl)
    ("A", .list [.str "x", .str "y"]) (List.mem_singleton.mpr rfl)

theorem leavesList_append :
    ∀ xs ys : List HVal, leavesList (xs ++ ys) = leavesList xs ++ leavesList ys
  | [], ys => rfl
  | x :: xs, ys => by
    show x.leaves ++ leavesList (xs ++ ys) =
      (x.leaves ++ leavesList xs) ++ leavesList ys
    rw [leavesList_append xs ys, List.append_assoc]

theorem promote_leaves (w v : HVal) :
    (promote w v).leaves = w.leaves ++ v.leaves := by
  cases w with
  | list xs =>
    show leavesList (xs ++ [v]) = leavesList xs ++ v.leaves
    rw [leavesList_append]
    simp [leavesList]
  | str s => simp [promote, HVal.leaves, leavesList]
  | dict d => simp [promote, HVal.leaves, leavesList]

theorem addEntry_leaves (k : String) (v : HVal) :
    ∀ d : List (String × HVal),
      (leavesDict (addEntry d k v)).Perm (leavesDict d ++ v.leaves)
  | [] => by simp [addEntry, leavesDict]
  | (k', w) :: rest => by
    by_cases hk : k' = k
    · simp only [addEntry, if_pos hk, leavesDict, promote_leaves]
      rw [List.append_assoc, List.append_assoc]
      exact List.perm_append_comm.append_left _
    · simp only [addEntry, if_neg hk, leavesDict]
      have h1 := (addEntry_leaves k v rest).append_left w.leaves
      rw [← List.append_assoc] at h1
      exact h1

theorem convChildren_leaves (u : Bool) :
    ∀ (cs : List Node) (d : List (String × HVal)),
      (∀ c ∈ cs, ((hl7_message_to_dict u c).leaves).Perm (nodeLeaves c)) →
      (leavesDict (convChildren u cs d)).Perm
        (leavesDict d ++ nodeLeavesList cs)
  | [], d, _ => by simp [convChildren, nodeLeavesList]
  | c :: cs, d, hrec => by
    have ih := convChildren_leaves u cs
      (addEntry d (chosenName u c) (hl7_message_to_dict u c))
      (fun c' hc' => hrec c' (List.mem_cons_of_mem _ hc'))
    have ha := (addEntry_leaves (chosenName u c)
      (hl7_message_to_dict u c) d).append_right (nodeLeavesList cs)
    have hc := ((hrec c (List.mem_cons_self _ _)).append_left
      (leavesDict d)).append_right (nodeLeavesList cs)
    have h1 := (ih.trans ha).trans hc
    rw [List.append_assoc] at h1
    exact h1

theorem hl7_leaves_perm (u : Bool) : ∀ n : Node,
    ((hl7_message_to_dict u n).leaves).Perm (nodeLeaves n) := by
  refine node_ind ?_
  intro nm ln cs lf ih
  cases cs with
  | nil => exact List.Perm.refl _
  | cons c cs' =>
    have := convChildren_leaves u (c :: cs') [] ih
    simpa [hl7_message_to_dict, HVal.leaves, nodeLeaves, leavesDict] using this

/-- C6: conversion loses and duplicates nothing — the multiset of leaf
strings reachable in the output (flattening aggregation sequences and nested
dicts) equals the multiset of leaf values of the input tree. -/
theorem claim_C6_no_data_loss (u : Bool) (n : Node) :
    (((hl7_message_to_dict u n).leaves : List String) : Multiset String) =
      ((nodeLeaves n : List String) : Multiset String) :=
  Multiset.coe_eq_coe.mpr (hl7_leaves_perm u n)

example :
    hl7_message_to_dict false
      (.mk "root" none
        [.mk "MSH" none [] "A", .mk "PID" none [] "B", .mk "MSH" none [] "C"] "")
      = .dict [("MSH", .list [.str "A", .str "C"]), ("PID", .str "B")] := rfl

end HL7
